import Mathlib

/-!
# Verification of the Redis physical backend (`src/physical/redis.go`)

A shallow embedding of the Redis-backed storage backend and its
high-availability lock from `faradayio/vault-1`, package `physical`.

Modelling conventions:

* The Redis server's keyspace is a `Store α`: an association list from keys
  to values, newest binding first.  `SET` prepends (the first binding wins
  on lookup, so prepending is overwrite), `DEL` removes every binding of the
  key, `KEYS` lists the distinct bound keys.  Key expiry (`EX`) is not part
  of the store model: none of the verified properties depends on the timer
  itself, only on the string the code sends for it.
* A use of a pooled connection either fails in transport (`Conn.fail e`,
  the Go path where `conn.Do` returns a non-nil error) or reaches the
  server (`Conn.respond`).  Errors are their Go message strings.
* Go `time.Duration` is an `Int` counting nanoseconds; 64-bit overflow is
  made explicit with `wrap64`.
* The acquisition retry loop, and the renewal goroutine, are run against an
  explicit finite schedule of per-iteration behaviors (transport outcome,
  whether `stopCh` fired first, the store contents an attempt observes);
  the functions return what the Go code would return to its caller under
  that schedule.
-/

namespace Physical

/-- First-match lookup in an association list (the semantics of a map / of
the Redis keyspace with newest binding first). -/
def lookupKey (k : String) : List (String × α) → Option α
  | [] => none
  | p :: rest => if p.1 = k then some p.2 else lookupKey k rest

/-- The Redis server's keyspace, restricted to values of type `α`. -/
structure Store (α : Type) where
  data : List (String × α)
deriving DecidableEq

/-- Redis `GET k`. -/
def Store.get (s : Store α) (k : String) : Option α :=
  lookupKey k s.data

/-- Redis `SET k v` (unconditional overwrite). -/
def Store.set (s : Store α) (k : String) (v : α) : Store α :=
  ⟨(k, v) :: s.data⟩

/-- Redis `DEL k`. -/
def Store.del (s : Store α) (k : String) : Store α :=
  ⟨s.data.filter (fun p => !decide (p.1 = k))⟩

/-- The distinct keys currently bound (what `KEYS *` can see). -/
def Store.keysOf (s : Store α) : List String :=
  (s.data.map Prod.fst).dedup

theorem Store.get_set_self (s : Store α) (k : String) (v : α) :
    (s.set k v).get k = some v := by
  simp [Store.get, Store.set, lookupKey]

theorem Store.get_set_ne (s : Store α) {k k' : String} (v : α) (h : k' ≠ k) :
    (s.set k' v).get k = s.get k := by
  simp [Store.get, Store.set, lookupKey, h]

theorem lookupKey_eq_none_iff (k : String) (l : List (String × α)) :
    lookupKey k l = none ↔ ∀ p ∈ l, p.1 ≠ k := by
  induction l with
  | nil => simp [lookupKey]
  | cons p rest ih =>
    by_cases h : p.1 = k
    · simp [lookupKey, h]
    · simp [lookupKey, h, ih, List.forall_mem_cons]

theorem lookupKey_filter_ne (k : String) (l : List (String × α)) :
    lookupKey k (l.filter (fun p => !decide (p.1 = k))) = none := by
  rw [lookupKey_eq_none_iff]
  intro p hp
  simpa using (List.mem_filter.1 hp).2

theorem Store.get_del_self (s : Store α) (k : String) : (s.del k).get k = none := by
  simp [Store.get, Store.del, lookupKey_filter_ne]

theorem lookupKey_filter_other {k k' : String} (h : k' ≠ k) (l : List (String × α)) :
    lookupKey k (l.filter (fun p => !decide (p.1 = k'))) = lookupKey k l := by
  induction l with
  | nil => simp
  | cons p rest ih =>
    by_cases h2 : p.1 = k'
    · rw [List.filter_cons_of_neg (by simp [h2])]
      rw [ih]
      have hne : p.1 ≠ k := by rw [h2]; exact h
      simp only [lookupKey]
      rw [if_neg hne]
    · rw [List.filter_cons_of_pos (by simpa using h2)]
      by_cases h3 : p.1 = k <;> simp [lookupKey, h3, ih]

theorem Store.get_del_ne (s : Store α) {k k' : String} (h : k' ≠ k) :
    (s.del k').get k = s.get k := by
  simp [Store.get, Store.del, lookupKey_filter_other h]

/-- Deleting an absent key leaves the keyspace unchanged. -/
theorem Store.del_absent (s : Store α) (k : String) (h : s.get k = none) :
    s.del k = s := by
  cases s with
  | mk data =>
    simp only [Store.del, Store.get] at *
    congr 1
    rw [List.filter_eq_self]
    intro p hp
    simpa using (lookupKey_eq_none_iff k data).1 h p hp

/-! ## Data model: entries, configuration, backend -/

/-- A storage entry: a `/`-delimited key and an opaque byte value
(Go `physical.Entry`, fields `Key` and `Value`). -/
structure Entry where
  key : String
  value : List Nat
deriving DecidableEq

/-- Configuration options for a `RedisLock` (all durations are `Int`
nanoseconds, Go `time.Duration`). -/
structure RedisLockConfig where
  leaderTTL : Int
  leaderTTLRenewInterval : Int
  leaderLockRetryInterval : Int

/-- The Redis physical backend: its namespace root and its lock
configuration.  The connection pool and logger of the Go struct are
resource handles with no bearing on the verified semantics; transport
behavior is supplied per call through `Conn`. -/
structure RedisBackend where
  path : String
  lockConf : RedisLockConfig

/-- One use of a pooled connection: the transport fails with an error, or
the command reaches the Redis server. -/
inductive Conn where
  | fail (e : String)
  | respond
deriving DecidableEq

/-- Two's-complement wrap-around of Go's 64-bit signed arithmetic. -/
def wrap64 (n : Int) : Int :=
  (n + 2 ^ 63) % 2 ^ 64 - 2 ^ 63

/-- Accumulate the decimal value of a digit run; `none` on the first
non-digit (Go `strconv` digit scan, base 10). -/
def digitsValAux (acc : Nat) : List Char → Option Nat
  | [] => some acc
  | c :: rest =>
    if c.isDigit then digitsValAux (acc * 10 + (c.toNat - 48)) rest else none

/-- Go `strconv.Atoi`: optional sign, then a non-empty run of decimal
digits, rejected when the value overflows a signed 64-bit int.  `none`
models a non-nil error. -/
def atoi (s : String) : Option Int :=
  let signed : Int × List Char :=
    match s.data with
    | '+' :: rest => (1, rest)
    | '-' :: rest => (-1, rest)
    | l => (1, l)
  match signed.2 with
  | [] => none
  | digits =>
    match digitsValAux 0 digits with
    | none => none
    | some n =>
      let v : Int := signed.1 * n
      if -(2 ^ 63) ≤ v ∧ v ≤ 2 ^ 63 - 1 then some v else none

/-- Go `parseRedisTimeout`: read `conf[key]` as integer milliseconds (default
when absent), returning the duration `timeout * time.Millisecond` — a
64-bit multiplication, hence `wrap64`. -/
def parseRedisTimeout (conf : List (String × String)) (key : String)
    (defaultVal : Int) : Except String Int :=
  match lookupKey key conf with
  | none => .ok defaultVal
  | some timeoutStr =>
    match atoi timeoutStr with
    | none => .error ("strconv.Atoi: parsing " ++ timeoutStr ++ ": invalid syntax or range")
    | some timeout => .ok (wrap64 (timeout * 1000000))

/-- Go `newRedisBackend`: read `path`, the Redis URL (with the `REDIS_URL`
environment override, passed here as `urlEnv`, `""` when unset), and the
three lock timeouts; reject a renewal interval of more than half the TTL.
The doubling `2*leaderTTLRenewInterval` is Go 64-bit arithmetic. -/
def newRedisBackend (conf : List (String × String)) (urlEnv : String) :
    Except String RedisBackend :=
  let path := (lookupKey "path" conf).getD "vault"
  let url := (lookupKey "url" conf).getD "redis://127.0.0.1:6379"
  let _url := if urlEnv ≠ "" then urlEnv else url
  match parseRedisTimeout conf "leader_ttl" (30 * 1000000000) with
  | .error e => .error e
  | .ok leaderTTL =>
    match parseRedisTimeout conf "leader_ttl_renew_interval" 1000000000 with
    | .error e => .error e
    | .ok leaderTTLRenewInterval =>
      match parseRedisTimeout conf "leader_lock_retry_interval" (5 * 1000000000) with
      | .error e => .error e
      | .ok leaderLockRetryInterval =>
        if wrap64 (2 * leaderTTLRenewInterval) > leaderTTL then
          .error "leader_ttl_renew_interval must be no more than half of leader_ttl"
        else
          .ok { path := path,
                lockConf := { leaderTTL := leaderTTL,
                              leaderTTLRenewInterval := leaderTTLRenewInterval,
                              leaderLockRetryInterval := leaderLockRetryInterval } }

/-! ## Storage operations -/

/-- Go `keyPath`: the store key for a caller key (`"%s/data/%s"`). -/
def RedisBackend.keyPath (c : RedisBackend) (key : String) : String :=
  c.path ++ "/data/" ++ key

/-- Effect of `Put` on the keyspace once the command reaches the server. -/
def RedisBackend.putCore (c : RedisBackend) (s : Store (List Nat)) (e : Entry) :
    Store (List Nat) :=
  s.set (c.keyPath e.key) e.value

/-- Go `Put(entry)`: `SET keyPath(entry.Key) entry.Value`. -/
def RedisBackend.put (c : RedisBackend) (cb : Conn) (s : Store (List Nat)) (e : Entry) :
    Except String (Store (List Nat)) :=
  match cb with
  | .fail err => .error err
  | .respond => .ok (c.putCore s e)

/-- What `Get` answers once the command reaches the server: `nil` reply
means no entry; otherwise the caller's key is paired with the raw bytes. -/
def RedisBackend.getCore (c : RedisBackend) (s : Store (List Nat)) (key : String) :
    Option Entry :=
  match s.get (c.keyPath key) with
  | none => none
  | some value => some { key := key, value := value }

/-- Go `Get(key)`: transport errors surface; an absent key is `.ok none`. -/
def RedisBackend.get (c : RedisBackend) (cb : Conn) (s : Store (List Nat)) (key : String) :
    Except String (Option Entry) :=
  match cb with
  | .fail err => .error err
  | .respond => .ok (c.getCore s key)

/-- Effect of `Delete` on the keyspace. -/
def RedisBackend.deleteCore (c : RedisBackend) (s : Store (List Nat)) (key : String) :
    Store (List Nat) :=
  s.del (c.keyPath key)

/-- Go `Delete(key)`: `DEL keyPath(key)`, reply count ignored. -/
def RedisBackend.delete (c : RedisBackend) (cb : Conn) (s : Store (List Nat)) (key : String) :
    Except String (Store (List Nat)) :=
  match cb with
  | .fail err => .error err
  | .respond => .ok (c.deleteCore s key)

/-- A store-mutating operation of the public storage interface. -/
inductive Op where
  | put (e : Entry)
  | del (k : String)

/-- Whether an operation writes or deletes the given caller key. -/
def Op.touches : Op → String → Bool
  | .put e, k => e.key = k
  | .del k', k => k' = k

def RedisBackend.applyOp (c : RedisBackend) (s : Store (List Nat)) : Op → Store (List Nat)
  | .put e => c.putCore s e
  | .del k => c.deleteCore s k

def RedisBackend.applyOps (c : RedisBackend) (s : Store (List Nat)) : List Op → Store (List Nat)
  | [] => s
  | op :: rest => c.applyOps (c.applyOp s op) rest

/-! ## List: directory-style listing over the flat keyspace -/

/-- Go `strings.TrimPrefix` on rune lists: drop the prefix when present,
else return the input unchanged. -/
def trimPrefixL (p s : List Char) : List Char :=
  if p.isPrefixOf s then s.drop p.length else s

/-- The slice `m[0 : strings.Index(m, "/") + 1]` of the List loop: the
first path segment of `m` together with its trailing slash, or `none` when
`m` has no slash (`strings.Index` returns -1). -/
def takeToSlash : List Char → Option (List Char)
  | [] => none
  | c :: rest =>
    if c = '/' then some ['/'] else (takeToSlash rest).map (fun d => c :: d)

/-- The filtering loop of `RedisBackend.List`: strip the queried path from
each match; a match without a further slash is an ordinary file, returned
directly; otherwise its first segment (with the trailing slash kept) is
returned once, `dirs` remembering the directories already seen. -/
def listFilter (realPre : List Char) : List (List Char) → List (List Char) → List (List Char)
  | [], _ => []
  | m :: rest, dirs =>
    let m' := trimPrefixL realPre m
    match takeToSlash m' with
    | none => m' :: listFilter realPre rest dirs
    | some dir =>
      if dir ∈ dirs then listFilter realPre rest dirs
      else dir :: listFilter realPre rest (dir :: dirs)

/-- Go `List(prefix)` once the command reaches the server: build the
directory-style query path (appending `/` unless already present), ask for
every key below it (`KEYS realPrefix+"*"`, modelled as a prefix match over
the bound keys), and run the filtering loop. -/
def RedisBackend.listCore (c : RedisBackend) (s : Store (List Nat)) (pre : String) :
    List String :=
  let rp := (c.keyPath pre).data
  let realPre := if ("/").data.isSuffixOf rp then rp else rp ++ ['/']
  let found := (s.keysOf.map String.data).filter (fun k => realPre.isPrefixOf k)
  (listFilter realPre found []).map (fun cs => String.mk cs)

/-- Go `List(prefix)` with its transport outcome. -/
def RedisBackend.list (c : RedisBackend) (cb : Conn) (s : Store (List Nat)) (pre : String) :
    Except String (List String) :=
  match cb with
  | .fail err => .error err
  | .respond => .ok (c.listCore s pre)

/-! ## The HA lock -/

/-- A lock implemented on Redis: the lease key (namespaced under
`_lock`), this holder's identity value, and the shared configuration. -/
structure RedisLock where
  key : String
  value : String
  lockConf : RedisLockConfig

/-- Go `LockWith(key, value)`: the lease key is `"%s/_lock/%s"`. -/
def RedisBackend.lockWith (c : RedisBackend) (key value : String) : RedisLock :=
  { key := c.path ++ "/_lock/" ++ key, value := value, lockConf := c.lockConf }

/-- Redis `SET k v NX`: claim the key only when absent; the Bool is whether the
reply was non-nil (the key was set).  The `EX` expiry timer is outside the
store model. -/
def setNX (s : Store String) (k v : String) : Store String × Bool :=
  match s.get k with
  | some _ => (s, false)
  | none => (s.set k v, true)

/-- What one call of `RedisLock.Lock` returns to its caller:
`acquired` = non-nil leader channel with nil error, `cancelled` = nil
channel and nil error (the `stopCh` branch), `storeErr e` = nil channel
with error `e`, `pending` = still inside the retry loop after the supplied
schedule. -/
inductive LockResult where
  | acquired
  | cancelled
  | storeErr (e : String)
  | pending
deriving DecidableEq

/-- One scheduled iteration of the acquisition loop: the connection's
transport behavior, and whether `stopCh` fires before the retry timer in
that iteration's `select`. -/
structure AcqStep where
  conn : Conn
  stopFired : Bool
deriving DecidableEq

/-- The retry loop of `RedisLock.Lock` run against a schedule, threading
the keyspace: attempt `SET key value NX EX`, fail outright on a transport
error, stop on a non-nil reply, otherwise wait out the `select` and
retry.  Returns the keyspace as the call leaves it and the call's result. -/
def RedisLock.lockLoop (lk : RedisLock) (s : Store String) :
    List AcqStep → Store String × LockResult
  | [] => (s, .pending)
  | step :: rest =>
    match step.conn with
    | .fail e => (s, .storeErr e)
    | .respond =>
      match setNX s lk.key lk.value with
      | (s', true) => (s', .acquired)
      | (_, false) =>
        if step.stopFired then (s, .cancelled) else lk.lockLoop s rest

/-- The environment one renewal attempt runs against: a transport failure,
or the keyspace contents at the moment `bumpTtlScript` executes. -/
inductive RenewStep where
  | fail (e : String)
  | world (s : Store String)
deriving DecidableEq

/-- The script `bumpTtlScript`: atomically, if `GET KEYS[1]` equals `ARGV[1]` then
`EXPIRE` the key (result 1), else result 0. -/
def bumpTtl (s : Store String) (k v : String) : Nat :=
  if s.get k = some v then 1 else 0

/-- Whether one renewal attempt succeeds: a transport error fails it
(`err != nil`), and so does a script result of 0 — the stored value no
longer equals this holder's identity, or the key is absent. -/
def renewOk (lk : RedisLock) : RenewStep → Bool
  | .fail _ => false
  | .world s => bumpTtl s lk.key lk.value != 0

/-- The renewal goroutine run against a schedule of attempts: returns how
many attempts it made and how many times it closed the loss channel
(`close(leaderCh)` then `return`).  An exhausted schedule means the task
is still running with the lease held. -/
def RedisLock.renewRun (lk : RedisLock) : List RenewStep → Nat × Nat
  | [] => (0, 0)
  | step :: rest =>
    if renewOk lk step then
      let r := lk.renewRun rest
      (r.1 + 1, r.2)
    else
      (1, 1)

/-- The script `unlockScript`: atomically, if `GET KEYS[1]` equals `ARGV[1]` then
`DEL` the key (result 1), else result 0. -/
def unlockScript (s : Store String) (k v : String) : Store String × Nat :=
  if s.get k = some v then (s.del k, 1) else (s, 0)

/-- Go `RedisLock.Unlock`: run the unlock script; a transport failure is the
call's error; a script result of 0 is the not-owner error; otherwise the
key was deleted and the call succeeds.  Returns the keyspace as the call
leaves it and the call's result. -/
def RedisLock.unlock (lk : RedisLock) (cb : Conn) (s : Store String) :
    Store String × Except String Unit :=
  match cb with
  | .fail e => (s, .error e)
  | .respond =>
    let r := unlockScript s lk.key lk.value
    if r.2 = 0 then (r.1, .error "redis: tried to unlock a lock we didn't own")
    else (r.1, .ok ())

/-! ## The lease TTL string (redis.go lines 239-242)

`RedisLock.Lock` computes, once per call,
`ttlSeconds := float64(leaderTTL) / float64(time.Second)` and
`ttlStr := strconv.Itoa(int(math.Ceil(ttlSeconds)))`, and passes `ttlStr`
both to the initial `SET ... NX EX` (line 254) and to `bumpTtlScript`
(line 299).  The float64 arithmetic is modelled exactly: a float64 value
is the dyadic rational it denotes, `rne` is IEEE-754 binary64
round-to-nearest-ties-to-even (the values reached here — magnitudes
between `2^-33` and `2^63` — are far from the subnormal and overflow
thresholds, so normalized rounding at 53 significant bits is the whole
behavior), the conversion and the division each round once, `math.Ceil`
is exact (the ceiling of any finite float64 is itself representable), and
Go's `int` conversion truncates. -/

/-- Round a rational to the nearest integer, ties to the even integer. -/
def roundHE (x : ℚ) : ℤ :=
  if x - ⌊x⌋ < 1/2 then ⌊x⌋
  else if 1/2 < x - ⌊x⌋ then ⌊x⌋ + 1
  else if 2 ∣ ⌊x⌋ then ⌊x⌋ else ⌊x⌋ + 1

/-- Round-to-nearest-even at 53 significant bits for a positive rational. -/
def rnePos (q : ℚ) : ℚ :=
  (roundHE (q * 2 ^ (-(Int.log 2 q - 52))) : ℚ) * 2 ^ (Int.log 2 q - 52)

/-- IEEE-754 binary64 round-to-nearest-even of an exact rational. -/
def rne (q : ℚ) : ℚ :=
  if q = 0 then 0 else if q < 0 then -rnePos (-q) else rnePos q

def floatOfInt (n : ℤ) : ℚ := rne (n : ℚ)
def floatDiv (x y : ℚ) : ℚ := rne (x / y)
def mathCeil (q : ℚ) : ℚ := (⌈q⌉ : ℚ)
def truncToInt (q : ℚ) : ℤ := if q < 0 then ⌈q⌉ else ⌊q⌋
def itoa (n : ℤ) : String := toString n

def ttlSeconds (conf : RedisLockConfig) : ℚ :=
  floatDiv (floatOfInt conf.leaderTTL) (floatOfInt 1000000000)

def ttlStr (conf : RedisLockConfig) : String :=
  itoa (truncToInt (mathCeil (ttlSeconds conf)))

/-! ## Helper lemmas about string concatenation -/

theorem string_append_left_cancel {p a b : String} (h : p ++ a = p ++ b) : a = b := by
  apply String.ext
  have hd := congrArg String.data h
  rw [String.data_append, String.data_append] at hd
  exact List.append_cancel_left hd

/-- Distinct caller keys are sent to distinct store keys. -/
theorem RedisBackend.keyPath_inj (c : RedisBackend) {a b : String}
    (h : c.keyPath a = c.keyPath b) : a = b := by
  unfold RedisBackend.keyPath at h
  exact string_append_left_cancel h

/-- A storage key (under `/data/`) never equals a lease key (under
`/_lock/`), whatever the backend path, caller key and lock name. -/
theorem keyPath_ne_lockKey (c : RedisBackend) (k n : String) :
    c.keyPath k ≠ c.path ++ "/_lock/" ++ n := by
  intro h
  have hd := congrArg String.data h
  simp only [RedisBackend.keyPath, String.data_append] at hd
  rw [List.append_assoc, List.append_assoc] at hd
  have h2 := List.append_cancel_left hd
  simp at h2

/-! ## Claims -/

/-- C10: storage keys and lock keys live in disjoint store namespaces.
The store key used by Put/Get/Delete is `path ++ "/data/" ++ key` while a
lock's lease key is `path ++ "/_lock/" ++ name`; they never coincide, so a
storage write or delete leaves every lease record unchanged, and a lock's
set-if-absent claim or unlock script leaves every storage record
unchanged. -/
theorem storage_and_lock_keyspaces_disjoint (c : RedisBackend) (k n v w : String)
    (s : Store (List Nat)) (e : Entry) (ls : Store String) :
    c.keyPath k ≠ (c.lockWith n v).key
    ∧ Store.get (c.putCore s e) ((c.lockWith n v).key) = Store.get s ((c.lockWith n v).key)
    ∧ Store.get (c.deleteCore s k) ((c.lockWith n v).key) = Store.get s ((c.lockWith n v).key)
    ∧ Store.get (setNX ls ((c.lockWith n v).key) w).1 (c.keyPath k)
        = Store.get ls (c.keyPath k)
    ∧ Store.get ((c.lockWith n v).unlock Conn.respond ls).1 (c.keyPath k)
        = Store.get ls (c.keyPath k) := by
  have hkey : (c.lockWith n v).key = c.path ++ "/_lock/" ++ n := rfl
  have hne : ∀ k' : String, c.keyPath k' ≠ (c.lockWith n v).key := by
    intro k'
    rw [hkey]
    exact keyPath_ne_lockKey c k' n
  refine ⟨hne k, ?_, ?_, ?_, ?_⟩
  · exact Store.get_set_ne s e.value (hne e.key)
  · exact Store.get_del_ne s (hne k)
  · unfold setNX
    cases hg : Store.get ls ((c.lockWith n v).key) with
    | none => simp [hg, Store.get_set_ne ls w (Ne.symm (hne k))]
    | some u => simp [hg]
  · unfold RedisLock.unlock unlockScript
    by_cases hg : Store.get ls ((c.lockWith n v).key) = some ((c.lockWith n v).value)
    · simp [hg, Store.get_del_ne ls (Ne.symm (hne k))]
    · simp [hg]

/-- C10 at a concrete instance: the two key spaces differ and a write
under `/data/` leaves a live lease untouched. -/
theorem storage_and_lock_keyspaces_disjoint_instance :
    RedisBackend.keyPath { path := "vault", lockConf := ⟨30000000000, 1000000000, 5000000000⟩ } "leader"
      ≠ (RedisBackend.lockWith { path := "vault", lockConf := ⟨30000000000, 1000000000, 5000000000⟩ } "leader" "node-1").key
    ∧ Store.get
        (RedisBackend.putCore { path := "vault", lockConf := ⟨30000000000, 1000000000, 5000000000⟩ }
          { data := [("vault/_lock/leader", [7])] } { key := "leader", value := [1, 2] })
        ((RedisBackend.lockWith { path := "vault", lockConf := ⟨30000000000, 1000000000, 5000000000⟩ } "leader" "node-1").key)
      = Store.get ({ data := [("vault/_lock/leader", [7])] } : Store (List Nat))
        ((RedisBackend.lockWith { path := "vault", lockConf := ⟨30000000000, 1000000000, 5000000000⟩ } "leader" "node-1").key) := by
  have h := storage_and_lock_keyspaces_disjoint
    { path := "vault", lockConf := ⟨30000000000, 1000000000, 5000000000⟩ }
    "leader" "leader" "node-1" "node-1"
    { data := [("vault/_lock/leader", [7])] }
    { key := "leader", value := [1, 2] }
    { data := [] }
  exact ⟨h.1, h.2.1⟩

/-- C4: reading a key that is not in the store — never written, or written
and then deleted — yields an absent result with a nil error, and deleting
an absent key is not an error (it leaves the store unchanged). -/
theorem get_absent_and_delete_idempotent (c : RedisBackend) (s : Store (List Nat))
    (k : String) (e : Entry) :
    (Store.get s (c.keyPath k) = none → c.get Conn.respond s k = .ok none)
    ∧ (e.key = k → c.get Conn.respond (c.deleteCore (c.putCore s e) k) k = .ok none)
    ∧ (c.delete Conn.respond s k).isOk = true
    ∧ (Store.get s (c.keyPath k) = none → c.delete Conn.respond s k = .ok s) := by
  refine ⟨?_, ?_, ?_, ?_⟩
  · intro h
    simp [RedisBackend.get, RedisBackend.getCore, h]
  · intro h
    simp [RedisBackend.get, RedisBackend.getCore, RedisBackend.deleteCore,
      Store.get_del_self]
  · simp [RedisBackend.delete, Except.isOk, Except.toBool]
  · intro h
    simp [RedisBackend.delete, RedisBackend.deleteCore, Store.del_absent s (c.keyPath k) h]

/-- C4 at a concrete instance: a never-written key reads back absent with
no error, a written-then-deleted key reads back absent, and deleting the
absent key is not an error. -/
theorem get_absent_and_delete_idempotent_instance :
    RedisBackend.get { path := "vault", lockConf := ⟨30000000000, 1000000000, 5000000000⟩ }
      Conn.respond { data := [] } "foo" = .ok none
    ∧ RedisBackend.get { path := "vault", lockConf := ⟨30000000000, 1000000000, 5000000000⟩ }
        Conn.respond
        (RedisBackend.deleteCore { path := "vault", lockConf := ⟨30000000000, 1000000000, 5000000000⟩ }
          (RedisBackend.putCore { path := "vault", lockConf := ⟨30000000000, 1000000000, 5000000000⟩ }
            { data := [] } { key := "foo", value := [1, 2, 3] }) "foo") "foo" = .ok none
    ∧ RedisBackend.delete { path := "vault", lockConf := ⟨30000000000, 1000000000, 5000000000⟩ }
        Conn.respond { data := [] } "foo" = .ok { data := [] } := by
  have h := get_absent_and_delete_idempotent
    { path := "vault", lockConf := ⟨30000000000, 1000000000, 5000000000⟩ }
    { data := [] } "foo" { key := "foo", value := [1, 2, 3] }
  exact ⟨h.1 (by decide), h.2.1 rfl, h.2.2.2 (by decide)⟩

/-- C7: `Unlock` deletes the lease key only when the stored value equals
this holder's identity.  On a value mismatch (or an absent key) it returns
the not-owner error and leaves the store unchanged; on a match it deletes
the key and returns no error; a transport failure is returned as an
error. -/
theorem unlock_only_owner_deletes (lk : RedisLock) (s : Store String) (e : String) :
    (Store.get s lk.key ≠ some lk.value →
        lk.unlock Conn.respond s = (s, .error "redis: tried to unlock a lock we didn't own"))
    ∧ (Store.get s lk.key = some lk.value →
        lk.unlock Conn.respond s = (s.del lk.key, .ok ()))
    ∧ lk.unlock (Conn.fail e) s = (s, .error e) := by
  refine ⟨?_, ?_, rfl⟩
  · intro h
    simp [RedisLock.unlock, unlockScript, h]
  · intro h
    simp [RedisLock.unlock, unlockScript, h]

/-- C7 at a concrete instance: a holder whose lease now stores another
identity gets the not-owner error and the other holder's lease survives;
the true owner deletes its lease with no error. -/
theorem unlock_only_owner_deletes_instance :
    RedisLock.unlock { key := "vault/_lock/leader", value := "node-1", lockConf := ⟨30000000000, 1000000000, 5000000000⟩ }
      Conn.respond { data := [("vault/_lock/leader", "node-2")] }
      = ({ data := [("vault/_lock/leader", "node-2")] },
         .error "redis: tried to unlock a lock we didn't own")
    ∧ RedisLock.unlock { key := "vault/_lock/leader", value := "node-2", lockConf := ⟨30000000000, 1000000000, 5000000000⟩ }
        Conn.respond { data := [("vault/_lock/leader", "node-2")] }
      = (Store.del { data := [("vault/_lock/leader", "node-2")] } "vault/_lock/leader", .ok ()) := by
  refine ⟨?_, ?_⟩
  · exact (unlock_only_owner_deletes
      { key := "vault/_lock/leader", value := "node-1", lockConf := ⟨30000000000, 1000000000, 5000000000⟩ }
      { data := [("vault/_lock/leader", "node-2")] } "").1 (by decide)
  · exact (unlock_only_owner_deletes
      { key := "vault/_lock/leader", value := "node-2", lockConf := ⟨30000000000, 1000000000, 5000000000⟩ }
      { data := [("vault/_lock/leader", "node-2")] } "").2.1 (by decide)

/-- C2: when the lease key is already held by another identity and the
cancellation channel fires before the retry timer, `Lock` returns a nil
channel and a nil error (`LockResult.cancelled`), leaving the store
exactly as it was — voluntary abandonment claims nothing and is not an
error. -/
theorem lock_cancel_returns_clean (lk : RedisLock) (s : Store String)
    (other : String) (rest : List AcqStep)
    (hheld : Store.get s lk.key = some other) (_hother : other ≠ lk.value) :
    lk.lockLoop s ({ conn := Conn.respond, stopFired := true } :: rest) = (s, .cancelled) := by
  simp [RedisLock.lockLoop, setNX, hheld]

/-- C2 at a concrete instance: key held by `node-2`, `stopCh` already
closed — the call returns the cancelled (nil, nil) result immediately and
the store still maps the lease key to `node-2`. -/
theorem lock_cancel_returns_clean_instance :
    RedisLock.lockLoop
      { key := "vault/_lock/leader", value := "node-1", lockConf := ⟨30000000000, 1000000000, 5000000000⟩ }
      { data := [("vault/_lock/leader", "node-2")] }
      [{ conn := Conn.respond, stopFired := true }]
      = ({ data := [("vault/_lock/leader", "node-2")] }, .cancelled) :=
  lock_cancel_returns_clean
    { key := "vault/_lock/leader", value := "node-1", lockConf := ⟨30000000000, 1000000000, 5000000000⟩ }
    { data := [("vault/_lock/leader", "node-2")] }
    "node-2" [] (by decide) (by decide)

/-- C8: a transport error on the set-if-absent attempt is fatal to the
`Lock` call.  After any number of clean unsuccessful attempts (key held,
no cancellation), an iteration whose connection fails makes the call
return that error at once — the rest of the schedule is never consulted
(no retry after the error) and the store is left unchanged (no lease
claimed). -/
theorem lock_acquisition_transport_error_fatal (lk : RedisLock) (s : Store String)
    (pre : List AcqStep) (e : String) (b : Bool) (rest : List AcqStep)
    (hheld : (Store.get s lk.key).isSome = true)
    (hpre : ∀ st ∈ pre, st.conn = Conn.respond ∧ st.stopFired = false) :
    lk.lockLoop s (pre ++ { conn := Conn.fail e, stopFired := b } :: rest)
      = (s, .storeErr e) := by
  induction pre with
  | nil => simp [RedisLock.lockLoop]
  | cons st pre ih =>
    obtain ⟨hc, hs⟩ := hpre st (by simp)
    obtain ⟨w, hw⟩ := Option.isSome_iff_exists.mp hheld
    rw [List.cons_append]
    calc lk.lockLoop s (st :: (pre ++ { conn := Conn.fail e, stopFired := b } :: rest))
        = lk.lockLoop s (pre ++ { conn := Conn.fail e, stopFired := b } :: rest) := by
          simp [RedisLock.lockLoop, hc, hs, setNX, hw]
      _ = (s, .storeErr e) := ih (fun st' h' => hpre st' (List.mem_cons_of_mem st h'))

/-- C8 at a concrete instance: one clean failed attempt, then a transport
failure — the call stops with that error even though a later iteration
could have acquired the key. -/
theorem lock_acquisition_transport_error_fatal_instance :
    RedisLock.lockLoop
      { key := "vault/_lock/leader", value := "node-1", lockConf := ⟨30000000000, 1000000000, 5000000000⟩ }
      { data := [("vault/_lock/leader", "node-2")] }
      ([{ conn := Conn.respond, stopFired := false }]
        ++ { conn := Conn.fail "dial tcp 127.0.0.1:6379: connection refused", stopFired := false }
          :: [{ conn := Conn.respond, stopFired := false }])
      = ({ data := [("vault/_lock/leader", "node-2")] },
         .storeErr "dial tcp 127.0.0.1:6379: connection refused") :=
  lock_acquisition_transport_error_fatal
    { key := "vault/_lock/leader", value := "node-1", lockConf := ⟨30000000000, 1000000000, 5000000000⟩ }
    { data := [("vault/_lock/leader", "node-2")] }
    [{ conn := Conn.respond, stopFired := false }]
    "dial tcp 127.0.0.1:6379: connection refused" false
    [{ conn := Conn.respond, stopFired := false }]
    (by decide) (by decide)

/-- C9: the renewal task converts any renewal-time failure into exactly
one loss signal.  Along any schedule: (1) after a run of successful
check-and-extend attempts, the first failing attempt makes the task close
the loss channel once and stop — nothing after it is attempted; (2) while
every attempt succeeds the channel is never closed and every scheduled
attempt is made (each success is followed by the next attempt); (3) the
channel is closed at most once on every schedule; (4) an attempt fails
exactly when its connection fails or the stored value no longer equals
this holder's identity (in particular when the key is absent). -/
theorem renewal_failure_closes_loss_channel_once (lk : RedisLock) :
    (∀ pre step rest, (∀ st ∈ pre, renewOk lk st = true) → renewOk lk step = false →
        lk.renewRun (pre ++ step :: rest) = (pre.length + 1, 1))
    ∧ (∀ steps : List RenewStep, (∀ st ∈ steps, renewOk lk st = true) →
        lk.renewRun steps = (steps.length, 0))
    ∧ (∀ steps : List RenewStep, (lk.renewRun steps).2 ≤ 1)
    ∧ (∀ step, renewOk lk step = false ↔
        ((∃ e, step = RenewStep.fail e)
          ∨ (∃ s, step = RenewStep.world s ∧ Store.get s lk.key ≠ some lk.value))) := by
  refine ⟨?_, ?_, ?_, ?_⟩
  · intro pre step rest hpre hfail
    induction pre with
    | nil => simp [RedisLock.renewRun, hfail]
    | cons st pre ih =>
      have hok := hpre st (by simp)
      rw [List.cons_append]
      simp only [RedisLock.renewRun, hok, if_pos]
      rw [ih (fun st' h' => hpre st' (List.mem_cons_of_mem st h'))]
      simp
  · intro steps hok
    induction steps with
    | nil => simp [RedisLock.renewRun]
    | cons st steps ih =>
      have h := hok st (by simp)
      simp only [RedisLock.renewRun, h, if_pos]
      rw [ih (fun st' h' => hok st' (List.mem_cons_of_mem st h'))]
      simp
  · intro steps
    induction steps with
    | nil => simp [RedisLock.renewRun]
    | cons st steps ih =>
      by_cases h : renewOk lk st
      · simpa [RedisLock.renewRun, h] using ih
      · simp [RedisLock.renewRun, h]
  · intro step
    cases step with
    | fail e => simp [renewOk]
    | world s =>
      by_cases h : Store.get s lk.key = some lk.value
      · simp [renewOk, bumpTtl, h]
      · simp [renewOk, bumpTtl, h]

/-- C9 at a concrete instance: two successful renewals, then the key is
reassigned to `node-2` — the task makes exactly three attempts, closes the
loss channel exactly once and stops, ignoring the rest of the schedule. -/
theorem renewal_failure_closes_loss_channel_once_instance :
    RedisLock.renewRun
      { key := "vault/_lock/leader", value := "node-1", lockConf := ⟨30000000000, 1000000000, 5000000000⟩ }
      ([RenewStep.world { data := [("vault/_lock/leader", "node-1")] },
        RenewStep.world { data := [("vault/_lock/leader", "node-1")] }]
        ++ RenewStep.world { data := [("vault/_lock/leader", "node-2")] }
          :: [RenewStep.world { data := [("vault/_lock/leader", "node-1")] }])
      = (3, 1) :=
  (renewal_failure_closes_loss_channel_once
    { key := "vault/_lock/leader", value := "node-1", lockConf := ⟨30000000000, 1000000000, 5000000000⟩ }).1
    [RenewStep.world { data := [("vault/_lock/leader", "node-1")] },
     RenewStep.world { data := [("vault/_lock/leader", "node-1")] }]
    (RenewStep.world { data := [("vault/_lock/leader", "node-2")] })
    [RenewStep.world { data := [("vault/_lock/leader", "node-1")] }]
    (by decide) (by decide)

/-- Mutating operations that do not touch a caller key leave its stored
bytes unchanged. -/
theorem applyOps_preserves_get (c : RedisBackend) (key : String) (v : List Nat) :
    ∀ (ops : List Op) (s : Store (List Nat)),
      (∀ op ∈ ops, op.touches key = false) →
      Store.get s (c.keyPath key) = some v →
      Store.get (c.applyOps s ops) (c.keyPath key) = some v := by
  intro ops
  induction ops with
  | nil =>
    intro s _ h
    simpa [RedisBackend.applyOps] using h
  | cons op rest ih =>
    intro s hops h
    have hop := hops op (by simp)
    rw [RedisBackend.applyOps]
    apply ih (c.applyOp s op) (fun op' h' => hops op' (List.mem_cons_of_mem op h'))
    cases op with
    | put e =>
      have hne : e.key ≠ key := by simpa [Op.touches] using hop
      have hkp : c.keyPath e.key ≠ c.keyPath key := fun hh => hne (c.keyPath_inj hh)
      rw [RedisBackend.applyOp, RedisBackend.putCore, Store.get_set_ne s e.value hkp]
      exact h
    | del k' =>
      have hne : k' ≠ key := by simpa [Op.touches] using hop
      have hkp : c.keyPath k' ≠ c.keyPath key := fun hh => hne (c.keyPath_inj hh)
      rw [RedisBackend.applyOp, RedisBackend.deleteCore, Store.get_del_ne s hkp]
      exact h

/-- C3: Put followed by Get round-trips.  After a successful `Put(e)` and
any run of further writes and deletes none of which touches `e.key`, `Get
e.key` returns an entry whose key is `e.key` itself and whose value is
byte-for-byte `e.value` — no encoding and no namespace prefixing leaks
into the result. -/
theorem put_get_roundtrip (c : RedisBackend) (s : Store (List Nat)) (e : Entry)
    (ops : List Op) (s₁ : Store (List Nat))
    (hput : c.put Conn.respond s e = .ok s₁)
    (hops : ∀ op ∈ ops, op.touches e.key = false) :
    c.get Conn.respond (c.applyOps s₁ ops) e.key
      = .ok (some { key := e.key, value := e.value }) := by
  have hs₁ : s₁ = c.putCore s e := by
    simpa [RedisBackend.put] using hput.symm
  subst hs₁
  have hbase : Store.get (c.putCore s e) (c.keyPath e.key) = some e.value :=
    Store.get_set_self s (c.keyPath e.key) e.value
  have h := applyOps_preserves_get c e.key e.value ops (c.putCore s e) hops hbase
  simp [RedisBackend.get, RedisBackend.getCore, h]

/-- C3 at a concrete instance: write `foo/bar`, then write another key and
delete a third; `Get "foo/bar"` still returns exactly the written bytes
under the caller's key. -/
theorem put_get_roundtrip_instance :
    RedisBackend.get { path := "vault", lockConf := ⟨30000000000, 1000000000, 5000000000⟩ }
      Conn.respond
      (RedisBackend.applyOps { path := "vault", lockConf := ⟨30000000000, 1000000000, 5000000000⟩ }
        (RedisBackend.putCore { path := "vault", lockConf := ⟨30000000000, 1000000000, 5000000000⟩ }
          { data := [] } { key := "foo/bar", value := [0, 255, 10] })
        [Op.put { key := "foo/baz", value := [4] }, Op.del "quux"])
      "foo/bar"
      = .ok (some { key := "foo/bar", value := [0, 255, 10] }) :=
  put_get_roundtrip { path := "vault", lockConf := ⟨30000000000, 1000000000, 5000000000⟩ }
    { data := [] } { key := "foo/bar", value := [0, 255, 10] }
    [Op.put { key := "foo/baz", value := [4] }, Op.del "quux"]
    (RedisBackend.putCore { path := "vault", lockConf := ⟨30000000000, 1000000000, 5000000000⟩ }
      { data := [] } { key := "foo/bar", value := [0, 255, 10] })
    rfl (by decide)

/-- C1 (amended): with every configured timeout parsing, construction
fails exactly when the Go 64-bit comparison `2*leaderTTLRenewInterval >
leaderTTL` holds over the stored nanosecond durations — the doubling and
the millisecond-to-nanosecond conversions wrap at 64 bits. -/
theorem newRedisBackend_errors_iff_wrapped_check (conf : List (String × String))
    (urlEnv : String) (ttl renewI retryI : Int)
    (h1 : parseRedisTimeout conf "leader_ttl" (30 * 1000000000) = .ok ttl)
    (h2 : parseRedisTimeout conf "leader_ttl_renew_interval" 1000000000 = .ok renewI)
    (h3 : parseRedisTimeout conf "leader_lock_retry_interval" (5 * 1000000000) = .ok retryI) :
    (newRedisBackend conf urlEnv).isOk = true ↔ ¬ wrap64 (2 * renewI) > ttl := by
  have h1' : parseRedisTimeout conf "leader_ttl" 30000000000 = .ok ttl := h1
  have h3' : parseRedisTimeout conf "leader_lock_retry_interval" 5000000000 = .ok retryI := h3
  by_cases hc : wrap64 (2 * renewI) > ttl <;>
    simp [newRedisBackend, h1', h2, h3', hc, Except.isOk, Except.toBool]

/-- C1 amended theorem at a concrete instance: TTL 1000 ms with renewal
interval 400 ms parses and constructs (2·400 ms ≤ 1000 ms, no wrap). -/
theorem newRedisBackend_errors_iff_wrapped_check_instance :
    (newRedisBackend [("leader_ttl", "1000"), ("leader_ttl_renew_interval", "400")] "").isOk = true
      ↔ ¬ wrap64 (2 * 400000000) > (1000000000 : Int) :=
  newRedisBackend_errors_iff_wrapped_check
    [("leader_ttl", "1000"), ("leader_ttl_renew_interval", "400")] ""
    1000000000 400000000 5000000000 rfl rfl rfl

/-- C1 counterexample to the claim as stated: with
`leader_ttl_renew_interval = "5000000000000"` (5·10^12 ms, which
`strconv.Atoi` accepts) and the TTL left at its 30000 ms default, twice
the parsed renewal interval exceeds the parsed lease TTL under both the
millisecond reading (2·5·10^12 > 30000) and the exact nanosecond duration
reading (2·5·10^18 > 3·10^10), so the claim demands an error — yet
construction succeeds, because Go's doubling `2*leaderTTLRenewInterval`
wraps 64-bit to a negative number and the `>` check passes. -/
theorem newRedisBackend_renew_check_counterexample :
    (newRedisBackend [("leader_ttl_renew_interval", "5000000000000")] "").isOk = true
    ∧ atoi "5000000000000" = some 5000000000000
    ∧ (2 * 5000000000000 > (30000 : Int))
    ∧ parseRedisTimeout [("leader_ttl_renew_interval", "5000000000000")]
        "leader_ttl_renew_interval" 1000000000 = .ok 5000000000000000000
    ∧ parseRedisTimeout [("leader_ttl_renew_interval", "5000000000000")]
        "leader_ttl" (30 * 1000000000) = .ok 30000000000
    ∧ (2 * 5000000000000000000 > (30000000000 : Int)) := by
  exact ⟨by decide, by decide, by decide, rfl, rfl, by decide⟩

/-! ## List: shape and de-duplication of the returned names -/

theorem takeToSlash_eq_none_iff (l : List Char) : takeToSlash l = none ↔ '/' ∉ l := by
  induction l with
  | nil => simp [takeToSlash]
  | cons c rest ih =>
    by_cases h : c = '/'
    · subst h; simp [takeToSlash]
    · rw [takeToSlash, if_neg h, Option.map_eq_none', ih]
      constructor
      · intro hn hmem
        rcases List.mem_cons.mp hmem with h1 | h1
        · exact h h1.symm
        · exact hn h1
      · intro hn h1
        exact hn (List.mem_cons_of_mem c h1)

theorem takeToSlash_some_shape : ∀ {l d : List Char}, takeToSlash l = some d →
    ∃ seg, d = seg ++ ['/'] ∧ '/' ∉ seg := by
  intro l
  induction l with
  | nil => intro d h; simp [takeToSlash] at h
  | cons c rest ih =>
    intro d h
    by_cases hc : c = '/'
    · subst hc
      rw [takeToSlash, if_pos rfl] at h
      obtain rfl : ['/'] = d := Option.some.inj h
      exact ⟨[], by simp, by simp⟩
    · rw [takeToSlash, if_neg hc, Option.map_eq_some'] at h
      obtain ⟨d', hd', rfl⟩ := h
      obtain ⟨seg, rfl, hseg⟩ := ih hd'
      refine ⟨c :: seg, by simp, ?_⟩
      intro hmem
      rcases List.mem_cons.mp hmem with h1 | h1
      · exact hc h1.symm
      · exact hseg h1

theorem trimPrefixL_append (p t : List Char) : trimPrefixL p (p ++ t) = t := by
  have hpre : p.isPrefixOf (p ++ t) = true := List.isPrefixOf_iff_prefix.mpr ⟨t, rfl⟩
  simp [trimPrefixL, hpre, List.drop_left]

/-- Stripping the queried path is injective on the keys it applies to. -/
theorem trimPrefixL_inj {p m1 m2 : List Char} (h1 : p.isPrefixOf m1 = true)
    (h2 : p.isPrefixOf m2 = true) (h : trimPrefixL p m1 = trimPrefixL p m2) : m1 = m2 := by
  obtain ⟨t1, rfl⟩ := List.isPrefixOf_iff_prefix.mp h1
  obtain ⟨t2, rfl⟩ := List.isPrefixOf_iff_prefix.mp h2
  rw [trimPrefixL_append, trimPrefixL_append] at h
  rw [h]

/-- Every name the filtering loop emits is either a bare leaf (no slash)
or a first path segment with exactly one slash, the trailing one. -/
theorem listFilter_shape (p : List Char) :
    ∀ (ms dirs : List (List Char)), ∀ r ∈ listFilter p ms dirs,
      '/' ∉ r ∨ ∃ seg, r = seg ++ ['/'] ∧ '/' ∉ seg := by
  intro ms
  induction ms with
  | nil => intro dirs r hr; simp [listFilter] at hr
  | cons m rest ih =>
    intro dirs r hr
    cases htt : takeToSlash (trimPrefixL p m) with
    | none =>
      simp only [listFilter, htt] at hr
      rcases List.mem_cons.mp hr with h1 | h1
      · left; subst h1; exact (takeToSlash_eq_none_iff _).mp htt
      · exact ih dirs r h1
    | some dir =>
      simp only [listFilter, htt] at hr
      by_cases hd : dir ∈ dirs
      · rw [if_pos hd] at hr; exact ih dirs r hr
      · rw [if_neg hd] at hr
        rcases List.mem_cons.mp hr with h1 | h1
        · right; subst h1; exact takeToSlash_some_shape htt
        · exact ih (dir :: dirs) r h1

/-- The filtering loop never emits a name twice: its output is duplicate
free, the directories it emits are exactly the ones not yet in `dirs`,
and its leaves are strips of its (distinct) input matches. -/
theorem listFilter_nodup_inv (p : List Char) :
    ∀ (ms dirs : List (List Char)), ms.Nodup →
      (∀ m ∈ ms, p.isPrefixOf m = true) →
      (listFilter p ms dirs).Nodup
      ∧ (∀ r ∈ listFilter p ms dirs, '/' ∈ r → r ∉ dirs)
      ∧ (∀ r ∈ listFilter p ms dirs, '/' ∉ r → ∃ m ∈ ms, r = trimPrefixL p m) := by
  intro ms
  induction ms with
  | nil => intro dirs _ _; simp [listFilter]
  | cons m rest ih =>
    intro dirs hnd hpre
    have hndr : rest.Nodup := (List.nodup_cons.mp hnd).2
    have hmnr : m ∉ rest := (List.nodup_cons.mp hnd).1
    have hprer : ∀ m' ∈ rest, p.isPrefixOf m' = true :=
      fun m' h' => hpre m' (List.mem_cons_of_mem m h')
    have hpm : p.isPrefixOf m = true := hpre m (by simp)
    cases htt : takeToSlash (trimPrefixL p m) with
    | none =>
      obtain ⟨ihn, ihd, ihl⟩ := ih dirs hndr hprer
      have hslash : '/' ∉ trimPrefixL p m := (takeToSlash_eq_none_iff _).mp htt
      refine ⟨?_, ?_, ?_⟩
      · simp only [listFilter, htt]
        rw [List.nodup_cons]
        refine ⟨?_, ihn⟩
        intro hmem
        rcases ihl _ hmem hslash with ⟨m2, hm2, heq⟩
        exact hmnr ((trimPrefixL_inj hpm (hprer m2 hm2) heq) ▸ hm2)
      · intro r hr hsl
        simp only [listFilter, htt] at hr
        rcases List.mem_cons.mp hr with h1 | h1
        · subst h1; exact absurd hsl hslash
        · exact ihd r h1 hsl
      · intro r hr hsl
        simp only [listFilter, htt] at hr
        rcases List.mem_cons.mp hr with h1 | h1
        · exact ⟨m, by simp, h1⟩
        · rcases ihl r h1 hsl with ⟨m2, hm2, heq⟩
          exact ⟨m2, List.mem_cons_of_mem m hm2, heq⟩
    | some dir =>
      have hdirslash : '/' ∈ dir := by
        rcases takeToSlash_some_shape htt with ⟨seg, rfl, _⟩
        simp
      by_cases hd : dir ∈ dirs
      · obtain ⟨ihn, ihd, ihl⟩ := ih dirs hndr hprer
        refine ⟨?_, ?_, ?_⟩
        · simp only [listFilter, htt]; rw [if_pos hd]; exact ihn
        · intro r hr
          simp only [listFilter, htt] at hr; rw [if_pos hd] at hr
          exact ihd r hr
        · intro r hr hsl
          simp only [listFilter, htt] at hr; rw [if_pos hd] at hr
          rcases ihl r hr hsl with ⟨m2, hm2, heq⟩
          exact ⟨m2, List.mem_cons_of_mem m hm2, heq⟩
      · obtain ⟨ihn, ihd, ihl⟩ := ih (dir :: dirs) hndr hprer
        refine ⟨?_, ?_, ?_⟩
        · simp only [listFilter, htt]; rw [if_neg hd]
          rw [List.nodup_cons]
          refine ⟨?_, ihn⟩
          intro hmem
          exact (ihd dir hmem hdirslash) (by simp)
        · intro r hr hsl
          simp only [listFilter, htt] at hr; rw [if_neg hd] at hr
          rcases List.mem_cons.mp hr with h1 | h1
          · subst h1; exact hd
          · intro hrd
            exact (ihd r h1 hsl) (List.mem_cons_of_mem dir hrd)
        · intro r hr hsl
          simp only [listFilter, htt] at hr; rw [if_neg hd] at hr
          rcases List.mem_cons.mp hr with h1 | h1
          · subst h1; exact absurd hdirslash hsl
          · rcases ihl r h1 hsl with ⟨m2, hm2, heq⟩
            exact ⟨m2, List.mem_cons_of_mem m hm2, heq⟩

/-- The whole List pipeline — prefix-filtered distinct keys through the
filtering loop — emits well-shaped names with no duplicates. -/
theorem listPipeline_ok (realPre : List Char) (keys : List String) (hnd : keys.Nodup) :
    (∀ r ∈ (listFilter realPre
        ((keys.map String.data).filter (fun k => realPre.isPrefixOf k)) []).map
          (fun cs => String.mk cs),
      '/' ∉ r.data ∨ ∃ seg, r.data = seg ++ ['/'] ∧ '/' ∉ seg)
    ∧ ((listFilter realPre
        ((keys.map String.data).filter (fun k => realPre.isPrefixOf k)) []).map
          (fun cs => String.mk cs)).Nodup := by
  have hdatainj : Function.Injective String.data := fun a b hab => String.ext hab
  have hfnd : ((keys.map String.data).filter (fun k => realPre.isPrefixOf k)).Nodup :=
    (hnd.map hdatainj).filter _
  have hprefd : ∀ m ∈ (keys.map String.data).filter (fun k => realPre.isPrefixOf k),
      realPre.isPrefixOf m = true := fun m hm => (List.mem_filter.mp hm).2
  obtain ⟨hnodup, -, -⟩ := listFilter_nodup_inv realPre _ [] hfnd hprefd
  constructor
  · intro r hr
    rw [List.mem_map] at hr
    obtain ⟨cs, hcs, rfl⟩ := hr
    exact listFilter_shape realPre _ [] cs hcs
  · exact hnodup.map (fun a b hab => congrArg String.data hab)

/-- C5: `List(prefix)` returns only immediate children one level below the
prefix, each at most once: every returned name is either a bare leaf with
no `/` in it, or a first path segment carrying exactly one `/`, the
trailing one; and the result has no duplicates however many deeper
descendants exist. -/
theorem list_returns_immediate_children_once (c : RedisBackend)
    (s : Store (List Nat)) (pre : String) :
    (∀ r ∈ c.listCore s pre,
        '/' ∉ r.data ∨ ∃ seg, r.data = seg ++ ['/'] ∧ '/' ∉ seg)
    ∧ (c.listCore s pre).Nodup := by
  have hnd : s.keysOf.Nodup := by
    rw [Store.keysOf]; exact List.nodup_dedup _
  exact listPipeline_ok
    (if ("/").data.isSuffixOf (c.keyPath pre).data then (c.keyPath pre).data
     else (c.keyPath pre).data ++ ['/'])
    s.keysOf hnd

/-- C5 at a concrete instance: under `foo` the keys `foo/a`, `foo/b/c`,
`foo/b/d` list as the leaf `a` and the single directory `b/` — the two
descendants of `b` are collapsed into one name, and the shape/no-duplicate
property instantiates to this output. -/
theorem list_returns_immediate_children_once_instance :
    RedisBackend.listCore { path := "vault", lockConf := ⟨30000000000, 1000000000, 5000000000⟩ }
      { data := [("vault/data/foo/a", [1]), ("vault/data/foo/b/c", [2]),
                 ("vault/data/foo/b/d", [3]), ("vault/data/other", [4])] }
      "foo" = ["a", "b/"]
    ∧ (RedisBackend.listCore { path := "vault", lockConf := ⟨30000000000, 1000000000, 5000000000⟩ }
        { data := [("vault/data/foo/a", [1]), ("vault/data/foo/b/c", [2]),
                   ("vault/data/foo/b/d", [3]), ("vault/data/other", [4])] }
        "foo").Nodup :=
  ⟨rfl,
   (list_returns_immediate_children_once
     { path := "vault", lockConf := ⟨30000000000, 1000000000, 5000000000⟩ }
     { data := [("vault/data/foo/a", [1]), ("vault/data/foo/b/c", [2]),
                ("vault/data/foo/b/d", [3]), ("vault/data/other", [4])] }
     "foo").2⟩

/-! ## C6: correctness and limit of the whole-second rounding -/

theorem roundHE_intCast (n : ℤ) : roundHE ((n:ℚ)) = n := by
  have h : ((n:ℚ)) - (⌊((n:ℚ))⌋ : ℚ) < 1/2 := by
    rw [Int.floor_intCast]; norm_num
  rw [roundHE, if_pos h, Int.floor_intCast]

theorem abs_roundHE_sub_le (x : ℚ) : |(roundHE x : ℚ) - x| ≤ 1/2 := by
  have h0 : ((⌊x⌋:ℚ)) ≤ x := Int.floor_le x
  have h1 : x < (⌊x⌋:ℚ) + 1 := Int.lt_floor_add_one x
  rw [roundHE]
  by_cases hlt : x - (⌊x⌋:ℚ) < 1/2
  · rw [if_pos hlt, abs_le]
    constructor <;> linarith
  · by_cases hgt : (1:ℚ)/2 < x - (⌊x⌋:ℚ)
    · rw [if_neg hlt, if_pos hgt, abs_le]
      push_cast
      constructor <;> linarith
    · have hh : x - (⌊x⌋:ℚ) = 1/2 := le_antisymm (not_lt.mp hgt) (not_lt.mp hlt)
      rw [if_neg hlt, if_neg hgt]
      by_cases hpar : 2 ∣ ⌊x⌋
      · rw [if_pos hpar, abs_le]
        constructor <;> linarith
      · rw [if_neg hpar, abs_le]
        push_cast
        constructor <;> linarith

theorem abs_scale_round_le (q : ℚ) (s : ℤ) :
    |(roundHE (q * 2 ^ (-s)) : ℚ) * 2 ^ s - q| ≤ 2 ^ (s - 1) := by
  have hpow : (0:ℚ) < 2 ^ s := by positivity
  have hq : q * 2 ^ (-s) * 2 ^ s = q := by
    rw [zpow_neg, inv_mul_cancel_right₀ hpow.ne']
  have hsplit : (roundHE (q * 2 ^ (-s)) : ℚ) * 2 ^ s - q
      = ((roundHE (q * 2 ^ (-s)) : ℚ) - q * 2 ^ (-s)) * 2 ^ s := by
    rw [sub_mul, hq]
  rw [hsplit, abs_mul, abs_of_pos hpow]
  calc |(roundHE (q * 2 ^ (-s)) : ℚ) - q * 2 ^ (-s)| * 2 ^ s
      ≤ (1/2) * 2 ^ s := mul_le_mul_of_nonneg_right (abs_roundHE_sub_le _) hpow.le
    _ = 2 ^ (s - 1) := by
        rw [zpow_sub₀ (by norm_num : (2:ℚ) ≠ 0)]
        ring

theorem abs_rnePos_sub_le (q : ℚ) : |rnePos q - q| ≤ 2 ^ (Int.log 2 q - 53) := by
  have h := abs_scale_round_le q (Int.log 2 q - 52)
  rw [show Int.log 2 q - 52 - 1 = Int.log 2 q - 53 from by omega] at h
  exact h

theorem scale_round_intCast (q : ℚ) (s : ℤ) (m : ℤ) (hm : q * 2 ^ (-s) = (m : ℚ)) :
    (roundHE (q * 2 ^ (-s)) : ℚ) * 2 ^ s = q := by
  have hpow : (0:ℚ) < 2 ^ s := by positivity
  rw [hm, roundHE_intCast, ← hm, zpow_neg, inv_mul_cancel_right₀ hpow.ne']

theorem rnePos_eq_self_of_int (q : ℚ) (m : ℤ)
    (hm : q * 2 ^ (-(Int.log 2 q - 52)) = (m : ℚ)) : rnePos q = q :=
  scale_round_intCast q (Int.log 2 q - 52) m hm

theorem rne_of_pos {q : ℚ} (h : 0 < q) : rne q = rnePos q := by
  rw [rne, if_neg h.ne', if_neg (not_lt.mpr h.le)]

theorem zpow_natCast_int (k : ℕ) : ((2:ℚ)) ^ ((k:ℤ)) = (((2 ^ k : ℤ)) : ℚ) := by
  rw [zpow_natCast]
  push_cast
  rfl

/-- Nonnegative integers up to `2^53` convert to float64 exactly. -/
theorem rne_intCast_of_le (v : ℤ) (h0 : 0 ≤ v) (h53 : v ≤ 2 ^ 53) :
    rne ((v:ℚ)) = (v:ℚ) := by
  rcases eq_or_lt_of_le h0 with h | hpos
  · rw [← h]
    simp [rne]
  · have hq : (0:ℚ) < (v:ℚ) := by exact_mod_cast hpos
    rw [rne_of_pos hq]
    have hup : (v:ℚ) < 2 ^ (54:ℤ) := by
      have hc : (v:ℚ) ≤ ((2 ^ 53 : ℤ) : ℚ) := by exact_mod_cast h53
      have h2 : ((2 ^ 53 : ℤ) : ℚ) < 2 ^ (54:ℤ) := by
        rw [show (54:ℤ) = ((54:ℕ):ℤ) from rfl, zpow_natCast_int]
        push_cast
        norm_num
      linarith
    have hlog_lt : Int.log 2 ((v:ℚ)) < 54 := (Int.lt_zpow_iff_log_lt (by norm_num) hq).mp hup
    by_cases h52 : Int.log 2 ((v:ℚ)) ≤ 52
    · obtain ⟨k, hk⟩ : ∃ k : ℕ, ((k:ℤ)) = 52 - Int.log 2 ((v:ℚ)) :=
        ⟨_, Int.toNat_of_nonneg (by omega)⟩
      apply rnePos_eq_self_of_int _ (v * 2 ^ k)
      rw [show -(Int.log 2 ((v:ℚ)) - 52) = ((k:ℤ)) from by omega, zpow_natCast_int]
      push_cast
      ring
    · have hlog53 : Int.log 2 ((v:ℚ)) = 53 := by omega
      have hge : (2 ^ 53 : ℤ) ≤ v := by
        have h2 := Int.zpow_log_le_self (b := 2) (by norm_num) hq
        rw [hlog53] at h2
        push_cast at h2
        rw [show (53:ℤ) = ((53:ℕ):ℤ) from rfl, zpow_natCast_int] at h2
        exact_mod_cast h2
      have hveq : v = 2 ^ 53 := le_antisymm h53 hge
      apply rnePos_eq_self_of_int _ (2 ^ 52)
      rw [hlog53, hveq]
      rw [show -((53:ℤ) - 52) = -(1:ℤ) from by ring, zpow_neg]
      push_cast
      norm_num

/-- Dividing a nonnegative int64-range number of nanoseconds that
converts exactly (at most `2^53`) by `10^9` and rounding once keeps the
exact ceiling: the quotient is below `2^24`, so half an ulp is under
`2^-30 < 10^-9`, smaller than any nonzero fractional part. -/
theorem ceil_rne_div_eq (x : ℤ) (h0 : 0 ≤ x) (h53 : x ≤ 2 ^ 53) :
    ⌈rne ((x:ℚ) / 1000000000)⌉ = ⌈(x:ℚ) / 1000000000⌉ := by
  have hmod := Int.ediv_add_emod x 1000000000
  have hrnn : 0 ≤ x % 1000000000 := Int.emod_nonneg x (by norm_num)
  have hrlt : x % 1000000000 < 1000000000 := Int.emod_lt_of_pos x (by norm_num)
  set q : ℚ := (x:ℚ) / 1000000000 with hqdef
  have hx : ((1000000000 * (x / 1000000000) + x % 1000000000 : ℤ) : ℚ) = (x:ℚ) := by
    exact_mod_cast congrArg (fun z : ℤ => (z:ℚ)) hmod
  have hq : q = ((x / 1000000000 : ℤ) : ℚ) + ((x % 1000000000 : ℤ) : ℚ) / 1000000000 := by
    rw [hqdef, ← hx]
    push_cast
    ring
  rcases eq_or_lt_of_le hrnn with hr0 | hrpos
  · have hq0 : q = ((x / 1000000000 : ℤ) : ℚ) := by
      rw [hq, ← hr0]
      norm_num
    have hd0 : 0 ≤ x / 1000000000 := Int.ediv_nonneg h0 (by norm_num)
    have hd53 : x / 1000000000 ≤ 2 ^ 53 := le_trans (Int.ediv_le_self _ h0) h53
    rw [hq0, rne_intCast_of_le _ hd0 hd53]
  · -- a positive remainder: the quotient is strictly between d and d+1
    have hd0 : (0:ℚ) ≤ ((x / 1000000000 : ℤ) : ℚ) := by
      exact_mod_cast Int.ediv_nonneg h0 (by norm_num)
    have hr1 : (1:ℚ) ≤ ((x % 1000000000 : ℤ) : ℚ) := by exact_mod_cast hrpos
    have hrq1 : (1:ℚ)/1000000000 ≤ ((x % 1000000000 : ℤ) : ℚ) / 1000000000 := by gcongr
    have hrq2 : ((x % 1000000000 : ℤ) : ℚ) / 1000000000 < 1 := by
      rw [div_lt_one (by norm_num)]
      exact_mod_cast hrlt
    have hqlb : ((x / 1000000000 : ℤ) : ℚ) < q := by
      rw [hq]
      linarith
    have hqub : q < ((x / 1000000000 : ℤ) : ℚ) + 1 := by
      rw [hq]
      linarith
    have hqpos : (0:ℚ) < q := lt_of_le_of_lt hd0 hqlb
    have hceilq : ⌈q⌉ = x / 1000000000 + 1 := by
      rw [Int.ceil_eq_iff]
      push_cast
      constructor <;> linarith
    -- the quotient sits below 2^24, so half an ulp is at most 2^(-30)
    have hx53 : (x:ℚ) ≤ 9007199254740992 := by exact_mod_cast h53
    have hqub24 : q < 2 ^ (24:ℤ) := by
      rw [hqdef, div_lt_iff₀ (by norm_num)]
      have h24 : ((2:ℚ)) ^ (24:ℤ) * 1000000000 = 16777216000000000 := by
        rw [show (24:ℤ) = ((24:ℕ):ℤ) from rfl, zpow_natCast]
        norm_num
      rw [h24]
      linarith
    have hlog : Int.log 2 q < 24 := (Int.lt_zpow_iff_log_lt (by norm_num) hqpos).mp hqub24
    have habs := abs_rnePos_sub_le q
    obtain ⟨hlo, hhi⟩ := abs_le.mp habs
    have hb2 : ((2:ℚ)) ^ (Int.log 2 q - 53) ≤ 2 ^ (-30:ℤ) :=
      zpow_le_zpow_right₀ (by norm_num) (by omega)
    have hb3 : ((2:ℚ)) ^ (-30:ℤ) < 1/1000000000 := by
      rw [zpow_neg]
      norm_num
    -- lower bound: the rounded quotient stays above d
    have hlb : ((x / 1000000000 : ℤ) : ℚ) < rnePos q := by
      have h1 : q - 2 ^ (Int.log 2 q - 53) ≤ rnePos q := by linarith
      have hq1 : ((x / 1000000000 : ℤ) : ℚ) + 1/1000000000 ≤ q := by
        rw [hq]
        linarith
      generalize hA : ((2:ℚ)) ^ (Int.log 2 q - 53) = A at h1 hb2
      generalize hB : ((2:ℚ)) ^ (-30:ℤ) = B at hb2 hb3
      linarith
    -- upper bound: the rounded quotient cannot exceed d + 1
    have hpows : (0:ℚ) < 2 ^ (Int.log 2 q - 52) := by positivity
    have hub : rnePos q ≤ ((x / 1000000000 : ℤ) : ℚ) + 1 := by
      by_contra hcon
      push_neg at hcon
      obtain ⟨k, hk⟩ : ∃ k : ℕ, ((k:ℤ)) = -(Int.log 2 q - 52) :=
        ⟨_, Int.toNat_of_nonneg (by omega)⟩
      have hpowk : ((2:ℚ)) ^ (-(Int.log 2 q - 52)) = (((2 ^ k : ℤ)) : ℚ) := by
        rw [← hk, zpow_natCast_int]
      have hcancel : (((2 ^ k : ℤ)) : ℚ) * 2 ^ (Int.log 2 q - 52) = 1 := by
        rw [← hpowk, zpow_neg, inv_mul_cancel₀ hpows.ne']
      have h2ks : (((2:ℚ)) ^ k) * 2 ^ (Int.log 2 q - 52) = 1 := by
        rw [show ((2:ℚ)) ^ k = (((2 ^ k : ℤ)) : ℚ) from by push_cast; rfl]
        exact hcancel
      have hstruct : rnePos q
          = ((roundHE (q * 2 ^ (-(Int.log 2 q - 52))) : ℤ) : ℚ)
            * 2 ^ (Int.log 2 q - 52) := rfl
      have hM1 : (((x / 1000000000 + 1) * 2 ^ k : ℤ) : ℚ)
          < ((roundHE (q * 2 ^ (-(Int.log 2 q - 52))) : ℤ) : ℚ) := by
        have hmul := mul_lt_mul_of_pos_right hcon
          (show (0:ℚ) < (((2 ^ k : ℤ)) : ℚ) by positivity)
        rw [hstruct] at hmul
        calc (((x / 1000000000 + 1) * 2 ^ k : ℤ) : ℚ)
            = (((x / 1000000000 : ℤ) : ℚ) + 1) * (((2 ^ k : ℤ)) : ℚ) := by push_cast; ring
          _ < ((roundHE (q * 2 ^ (-(Int.log 2 q - 52))) : ℤ) : ℚ)
              * 2 ^ (Int.log 2 q - 52) * (((2 ^ k : ℤ)) : ℚ) := hmul
          _ = ((roundHE (q * 2 ^ (-(Int.log 2 q - 52))) : ℤ) : ℚ) := by
              rw [mul_assoc, mul_comm (2 ^ (Int.log 2 q - 52)) _, hcancel, mul_one]
      have hMge : ((x / 1000000000 + 1) * 2 ^ k : ℤ) + 1
          ≤ roundHE (q * 2 ^ (-(Int.log 2 q - 52))) :=
        Int.add_one_le_iff.mpr (by exact_mod_cast hM1)
      have hge : ((x / 1000000000 : ℤ) : ℚ) + 1 + 2 ^ (Int.log 2 q - 52) ≤ rnePos q := by
        have hcast : ((((x / 1000000000 + 1) * 2 ^ k : ℤ) + 1 : ℤ) : ℚ)
            ≤ ((roundHE (q * 2 ^ (-(Int.log 2 q - 52))) : ℤ) : ℚ) := by exact_mod_cast hMge
        have hmul2 := mul_le_mul_of_nonneg_right hcast hpows.le
        rw [← hstruct] at hmul2
        calc ((x / 1000000000 : ℤ) : ℚ) + 1 + 2 ^ (Int.log 2 q - 52)
            = ((((x / 1000000000 + 1) * 2 ^ k : ℤ) + 1 : ℤ) : ℚ)
              * 2 ^ (Int.log 2 q - 52) := by
              push_cast
              linear_combination (-(((x / 1000000000 : ℤ) : ℚ) + 1)) * h2ks
          _ ≤ rnePos q := hmul2
      have hsmall : (2:ℚ) ^ (Int.log 2 q - 53) < 2 ^ (Int.log 2 q - 52) := by
        rw [show Int.log 2 q - 53 = (Int.log 2 q - 52) - 1 from by omega,
          zpow_sub₀ (by norm_num : (2:ℚ) ≠ 0)]
        linarith [half_lt_self hpows]
      generalize hA : ((2:ℚ)) ^ (Int.log 2 q - 53) = A at hhi hsmall
      generalize hS : ((2:ℚ)) ^ (Int.log 2 q - 52) = S at hge hsmall
      linarith
    rw [rne_of_pos hqpos, hceilq, Int.ceil_eq_iff]
    push_cast
    constructor <;> linarith

theorem truncToInt_intCast (n : ℤ) : truncToInt ((n:ℚ)) = n := by
  rw [truncToInt]
  split
  · exact Int.ceil_intCast n
  · exact Int.floor_intCast n

/-- C6 (amended): for every configuration whose lease TTL is a nonnegative
duration of at most `2^53` nanoseconds (about 104 days), the expiry string
is exactly the TTL rounded up to whole seconds — never down, so the
effective whole-second expiry is never shorter than configured. -/
theorem ttlStr_exact_ceil_of_le (conf : RedisLockConfig)
    (h0 : 0 ≤ conf.leaderTTL) (h53 : conf.leaderTTL ≤ 2 ^ 53) :
    ttlStr conf = itoa ⌈((conf.leaderTTL : ℤ) : ℚ) / 1000000000⌉
    ∧ ((conf.leaderTTL : ℤ) : ℚ)
        ≤ (⌈((conf.leaderTTL : ℤ) : ℚ) / 1000000000⌉ : ℚ) * 1000000000 := by
  constructor
  · have hsec : floatOfInt 1000000000 = (1000000000:ℚ) := by
      have h := rne_intCast_of_le 1000000000 (by norm_num) (by norm_num)
      rw [floatOfInt]
      norm_num at h ⊢
      exact h
    have httl : floatOfInt conf.leaderTTL = ((conf.leaderTTL : ℤ) : ℚ) :=
      rne_intCast_of_le _ h0 h53
    have hc := ceil_rne_div_eq conf.leaderTTL h0 h53
    rw [ttlStr, ttlSeconds, floatDiv, httl, hsec, mathCeil, hc, truncToInt_intCast]
  · have h := Int.le_ceil (((conf.leaderTTL : ℤ) : ℚ) / 1000000000)
    rw [div_le_iff₀ (by norm_num : (0:ℚ) < 1000000000)] at h
    exact h

/-- C6 counterexample to the claim as stated: at
`leaderTTL = 2^33 * 10^9 + 1` nanoseconds the int64-to-float64 conversion
rounds the TTL down to `2^33 * 10^9` (half an ulp there is 512 ns), the
division is then exact, and the code sends `"8589934592"` — one second
BELOW the exact ceiling `8589934593` of the configured TTL, so the
rounding is not always upward and the effective expiry is shorter than
configured. -/
theorem ttlStr_rounds_down_counterexample :
    ttlStr { leaderTTL := 8589934592000000001, leaderTTLRenewInterval := 1000000000,
             leaderLockRetryInterval := 5000000000 } = "8589934592"
    ∧ ⌈((8589934592000000001 : ℤ) : ℚ) / 1000000000⌉ = 8589934593
    ∧ itoa 8589934593 = "8589934593"
    ∧ ("8589934592" : String) ≠ "8589934593" := by
  refine ⟨?_, ?_, rfl, by decide⟩
  · have hq0 : (((8589934592000000001 : ℤ)) : ℚ) = (8589934592000000001 : ℚ) := by norm_num
    have hpos : (0:ℚ) < (8589934592000000001 : ℚ) := by norm_num
    have hlog : Int.log 2 ((8589934592000000001 : ℚ)) = 62 := by
      have h1 : ((2:ℚ))^(62:ℤ) ≤ (8589934592000000001 : ℚ) := by
        rw [show (62:ℤ) = ((62:ℕ):ℤ) from rfl, zpow_natCast]
        norm_num
      have h2 : (8589934592000000001 : ℚ) < ((2:ℚ))^(63:ℤ) := by
        rw [show (63:ℤ) = ((63:ℕ):ℤ) from rfl, zpow_natCast]
        norm_num
      have ha := (Int.zpow_le_iff_le_log (by norm_num) hpos).mp h1
      have hb := (Int.lt_zpow_iff_log_lt (by norm_num) hpos).mp h2
      exact le_antisymm (Int.lt_add_one_iff.mp hb) ha
    have hscaled : (8589934592000000001 : ℚ)
        * 2 ^ (-(Int.log 2 ((8589934592000000001 : ℚ)) - 52))
        = (8589934592000000001 : ℚ) / 1024 := by
      rw [hlog, show -((62:ℤ) - 52) = -(10:ℤ) from by norm_num, zpow_neg,
        show (10:ℤ) = ((10:ℕ):ℤ) from rfl, zpow_natCast]
      norm_num
    have hfl : ⌊(8589934592000000001:ℚ)/1024⌋ = 8388608000000000 :=
      Int.floor_eq_iff.mpr ⟨by norm_num, by norm_num⟩
    have hround : roundHE ((8589934592000000001:ℚ)/1024) = 8388608000000000 := by
      have hcond : (8589934592000000001:ℚ)/1024 - (⌊(8589934592000000001:ℚ)/1024⌋ : ℚ)
          < 1/2 := by
        rw [hfl]
        norm_num
      rw [roundHE, if_pos hcond, hfl]
    have hrne : rne ((8589934592000000001 : ℚ)) = (8589934592000000000 : ℚ) := by
      rw [rne_of_pos hpos, rnePos, hscaled, hround, hlog]
      rw [show (62:ℤ) - 52 = ((10:ℕ):ℤ) from rfl, zpow_natCast]
      norm_num
    have hsec : floatOfInt 1000000000 = (1000000000:ℚ) := by
      have h := rne_intCast_of_le 1000000000 (by norm_num) (by norm_num)
      rw [floatOfInt]
      norm_num at h ⊢
      exact h
    have hquot : (8589934592000000000 : ℚ) / 1000000000 = (8589934592 : ℚ) := by
      norm_num
    have hrne2 : rne ((8589934592 : ℚ)) = (8589934592 : ℚ) := by
      have h := rne_intCast_of_le 8589934592 (by norm_num) (by norm_num)
      norm_num at h ⊢
      exact h
    rw [ttlStr, ttlSeconds, floatDiv, floatOfInt, hq0, hrne, hsec, hquot, hrne2, mathCeil]
    rw [show ((8589934592:ℚ)) = (((8589934592:ℤ)):ℚ) from by norm_num, Int.ceil_intCast,
      truncToInt_intCast]
    rfl
  · refine Int.ceil_eq_iff.mpr ⟨by norm_num, by norm_num⟩

/-- C6 amended theorem at a concrete instance: a 1500 ms TTL — sub-second
fraction — is sent as `"2"`, the exact ceiling, rounded up. -/
theorem ttlStr_exact_ceil_of_le_instance :
    ttlStr { leaderTTL := 1500000000, leaderTTLRenewInterval := 500000000,
             leaderLockRetryInterval := 5000000000 }
      = itoa ⌈((1500000000 : ℤ) : ℚ) / 1000000000⌉
    ∧ ⌈((1500000000 : ℤ) : ℚ) / 1000000000⌉ = 2
    ∧ itoa 2 = "2" := by
  have h := ttlStr_exact_ceil_of_le
    { leaderTTL := 1500000000, leaderTTLRenewInterval := 500000000,
      leaderLockRetryInterval := 5000000000 } (by norm_num) (by norm_num)
  exact ⟨h.1, Int.ceil_eq_iff.mpr ⟨by norm_num, by norm_num⟩, rfl⟩

end Physical
